import Mathlib

/-!
Verification development for the `world_music_events.py` event-listing
pipeline: normalization of raw API event objects into flat records,
pagination with a deep-paging guard, identifier-keyed deduplication,
country allow/block filtering, and CSV serialization.

The raw JSON event objects are modelled as a tree of optional fields
mirroring exactly the accesses the Python code performs; `None`-or-falsy
defaulting (`x or d`) is modelled explicitly at each access site.
-/

/-- One attraction entry inside an event: either not a JSON object at all
(the code checks `isinstance(a, dict)`), or an object with an optional
name field. -/
inductive AttractionJ where
  | notDict : AttractionJ
  | dict (name : Option String) : AttractionJ
deriving DecidableEq

/-- One venue object: optional venue name, optional city object carrying an
optional name, optional country object carrying an optional name. -/
structure VenueJ where
  name : Option String
  city : Option (Option String)
  country : Option (Option String)
deriving DecidableEq

/-- The `_embedded` object of an event: optional venue list and optional
attraction list. -/
structure EmbeddedJ where
  venues : Option (List VenueJ)
  attractions : Option (List AttractionJ)
deriving DecidableEq

/-- One classification object: optional genre object and optional subGenre
object, each carrying an optional name. -/
structure ClassificationJ where
  genre : Option (Option String)
  subGenre : Option (Option String)
deriving DecidableEq

/-- The `dates.start` object: optional localDate and localTime strings. -/
structure StartJ where
  localDate : Option String
  localTime : Option String
deriving DecidableEq

/-- One raw event object from the API, with every nested field optional,
exactly the fields `normalize_row` reads. The `dates` field is an optional
dates object whose only read sub-field is the optional `start` object. -/
structure RawEvent where
  id : Option String
  name : Option String
  embedded : Option EmbeddedJ
  classifications : Option (List ClassificationJ)
  dates : Option (Option StartJ)
  url : Option String
deriving DecidableEq

/-- Python `x or d` for an optional list value: a missing key or an empty
list both fall back to the default. -/
def listOr (x : Option (List α)) (d : List α) : List α :=
  match x with
  | none => d
  | some [] => d
  | some l => l

/-- Python `(x or {}).get name` for a doubly-optional string: the inner
name when both levels are present, otherwise nothing. -/
def innerName (x : Option (Option String)) : Option String :=
  match x with
  | none => none
  | some n => n

/-- The flat normalized record: twelve fields, identifier plus eleven
optional attributes, matching the CSV columns. -/
structure Record where
  event_id : Option String
  event_name : Option String
  local_date : Option String
  local_time : Option String
  city : Option String
  country : Option String
  venue_name : Option String
  genre_name : Option String
  subgenre_name : Option String
  artist_primary : Option String
  artists : Option String
  url : Option String
deriving DecidableEq

/-- The truthy attraction names of an event, in order: the `names` list of
`extract_artists` — `a.get("name")` for each dict entry, kept when
non-None and non-empty. -/
def attraction_names (e : RawEvent) : List String :=
  let atts : List AttractionJ :=
    match e.embedded with
    | none => []
    | some emb => listOr emb.attractions []
  atts.filterMap fun a =>
    match a with
    | .dict (some n) => if n = "" then none else some n
    | _ => none

/-- The dedup loop of `extract_artists`: walk the list keeping each name
not yet seen, recording seen names. -/
def dedupeFirst (seen : List String) : List String → List String
  | [] => []
  | n :: ns => if n ∈ seen then dedupeFirst seen ns else n :: dedupeFirst (n :: seen) ns

/-- `extract_artists`: the truthy attraction names deduplicated preserving
first-seen order. -/
def extract_artists (e : RawEvent) : List String :=
  dedupeFirst [] (attraction_names e)

/-- ASCII lowercasing of one character, as Python lowercases the country
labels involved here. -/
def lowerChar (c : Char) : Char :=
  if 'A' ≤ c ∧ c ≤ 'Z' then Char.ofNat (c.toNat + 32) else c

/-- Python `str.lower` on the strings this program compares. -/
def pyLower (s : String) : String := String.mk (s.data.map lowerChar)

/-- The whitespace characters Python `str.strip` removes. -/
def isSpaceChar (c : Char) : Bool :=
  c = ' ' || c = '\t' || c = '\n' || c = '\r' || c = '\x0b' || c = '\x0c'

/-- Drop leading and trailing whitespace from a character list. -/
def trimChars (l : List Char) : List Char :=
  ((l.dropWhile isSpaceChar).reverse.dropWhile isSpaceChar).reverse

/-- Python `str.strip` with no argument. -/
def pyStrip (s : String) : String := String.mk (trimChars s.data)

/-- Split a character list at every comma; a trailing comma yields a final
empty group, no comma yields one group. -/
def splitComma : List Char → List (List Char)
  | [] => [[]]
  | c :: rest =>
    let r := splitComma rest
    if c = ',' then [] :: r
    else
      match r with
      | [] => [[c]]
      | g :: gs => (c :: g) :: gs

/-- Python `str.split(",")`. -/
def pySplitComma (s : String) : List String := (splitComma s.data).map String.mk

/-- Python `sep.join(parts)`. -/
def joinWith (sep : String) : List String → String
  | [] => ""
  | [s] => s
  | s :: rest => s ++ sep ++ joinWith sep rest

/-- Double every quote character, as CSV quoting requires. -/
def escapeQuotes : List Char → List Char
  | [] => []
  | c :: rest => if c = '"' then '"' :: '"' :: escapeQuotes rest else c :: escapeQuotes rest

/-- An empty venue object, the `{}` fallback. -/
def emptyVenue : VenueJ := ⟨none, none, none⟩

/-- An empty classification object, the `{}` fallback. -/
def emptyCls : ClassificationJ := ⟨none, none⟩

/-- An empty start object, the `{}` fallback. -/
def emptyStart : StartJ := ⟨none, none⟩

/-- `normalize_row`: map one raw event to a flat record, defaulting every
missing optional field to nothing. Mirrors the Python accesses:
`venues = emb.get("venues") or [{}]`, `v = venues[0] if venues else {}`,
first classification, `dates.start`, artist extraction. -/
def normalize_row (e : RawEvent) : Record :=
  let venues : List VenueJ :=
    match e.embedded with
    | none => [emptyVenue]
    | some emb => listOr emb.venues [emptyVenue]
  let v : VenueJ := match venues with
    | [] => emptyVenue
    | w :: _ => w
  let cls_list : List ClassificationJ := listOr e.classifications [emptyCls]
  let cls : ClassificationJ := match cls_list with
    | [] => emptyCls
    | c :: _ => c
  let genre_name := innerName cls.genre
  let subgenre_name := innerName cls.subGenre
  let start : StartJ :=
    match e.dates with
    | none => emptyStart
    | some none => emptyStart
    | some (some s) => s
  let artists := extract_artists e
  let artist_primary := match artists with
    | [] => none
    | a :: _ => some a
  let artists_joined := match artists with
    | [] => none
    | _ => some (joinWith "; " artists)
  { event_id := e.id
    event_name := e.name
    local_date := start.localDate
    local_time := start.localTime
    city := innerName v.city
    country := innerName v.country
    venue_name := v.name
    genre_name := genre_name
    subgenre_name := subgenre_name
    artist_primary := artist_primary
    artists := artists_joined
    url := e.url }

/-- The fixed 12-column CSV header order from `main`. -/
def headers : List String :=
  ["event_id", "event_name", "local_date", "local_time", "city", "country",
   "venue_name", "genre_name", "subgenre_name", "artist_primary", "artists", "url"]

/-- A record viewed as the key/value dictionary `normalize_row` builds, in
the order the Python dict literal declares its keys. -/
def Record.fields (r : Record) : List (String × Option String) :=
  [("event_id", r.event_id),
   ("event_name", r.event_name),
   ("local_date", r.local_date),
   ("local_time", r.local_time),
   ("city", r.city),
   ("country", r.country),
   ("venue_name", r.venue_name),
   ("genre_name", r.genre_name),
   ("subgenre_name", r.subgenre_name),
   ("artist_primary", r.artist_primary),
   ("artists", r.artists),
   ("url", r.url)]

/-- Dictionary access `r[h]` as the CSV writer performs it: the value
stored under key `h`, nothing when the key is absent. -/
def fieldOf (r : Record) (h : String) : Option String :=
  match (r.fields.find? fun p => p.1 == h) with
  | none => none
  | some p => p.2

/-- Minimal CSV quoting: a field is quoted, with inner quotes doubled,
exactly when it contains the delimiter, the quote character, or a line
break. -/
def csvCell (s : String) : String :=
  if s.data.any (fun c => c = ',' || c = '"' || c = '\n' || c = '\r') then
    "\"" ++ String.mk (escapeQuotes s.data) ++ "\""
  else s

/-- One CSV data row for a record: the twelve fields in header order,
absent values as empty cells, joined by commas. -/
def recordCsvRow (r : Record) : String :=
  joinWith "," (headers.map fun h => csvCell ((fieldOf r h).getD ""))

/-- The CSV header row. -/
def headerCsvRow : String :=
  joinWith "," (headers.map csvCell)

/-- C2: a raw event that has an identifier but lacks every optional nested
field normalizes, without any failure, to the record whose identifier is
the only populated field; all other eleven fields are absent. -/
theorem normalize_row_minimal (i : String) :
    normalize_row ⟨some i, none, none, none, none, none⟩ =
      { event_id := some i, event_name := none, local_date := none,
        local_time := none, city := none, country := none, venue_name := none,
        genre_name := none, subgenre_name := none, artist_primary := none,
        artists := none, url := none } := rfl

/-- C9: for every input event, the record produced by `normalize_row` has
exactly the twelve keys of the fixed CSV header, in that order — so every
normalized record is writable as a full CSV row. -/
theorem normalize_row_keys (e : RawEvent) :
    ((normalize_row e).fields).map Prod.fst = headers := rfl

/-! ## Deduplication: the insertion-ordered identifier map of `main`

`main` builds `combined: dict[str, dict]` with `combined[r["event_id"]] = r`
over the concatenation of the two scopes' row lists, then takes
`list(combined.values())`. A Python dict updates an existing key in place
(keeping its position) and appends a new key at the end; we model it as an
association list with exactly that update rule. -/

/-- Dictionary assignment `m[k] = v`: replace the value at `k` in place
when the key is present, append the pair at the end otherwise. -/
def upsert : List (Option String × Record) → Option String → Record → List (Option String × Record)
  | [], k, v => [(k, v)]
  | (k', v') :: rest, k, v =>
      if k' = k then (k, v) :: rest else (k', v') :: upsert rest k v

/-- Dictionary read: the value stored under a key, if any. -/
def dictGet : List (Option String × Record) → Option String → Option Record
  | [], _ => none
  | (k', v) :: rest, k => if k' = k then some v else dictGet rest k

/-- The deduplication loop: assign every row to its identifier key in
order. -/
def insertAll (m : List (Option String × Record)) (rows : List Record) :
    List (Option String × Record) :=
  rows.foldl (fun acc r => upsert acc r.event_id r) m

/-- `list(combined.values())` for the dict built from a row list starting
empty: the deduplicated record collection of `main`. -/
def dedupeById (rows : List Record) : List Record :=
  (insertAll [] rows).map Prod.snd

/-- The last record in a list carrying a given identifier, if any: the
record a last-write-wins map stores under that key. -/
def lastWithId : List Record → Option String → Option Record
  | [], _ => none
  | r :: rest, k =>
      match lastWithId rest k with
      | some s => some s
      | none => if r.event_id = k then some r else none

theorem dictGet_upsert_self (m : List (Option String × Record)) (k : Option String)
    (v : Record) : dictGet (upsert m k v) k = some v := by
  induction m with
  | nil => simp [upsert, dictGet]
  | cons p rest ih =>
    obtain ⟨k', v'⟩ := p
    by_cases h : k' = k
    · simp [upsert, h, dictGet]
    · simp [upsert, h, dictGet, ih]

theorem dictGet_upsert_ne (m : List (Option String × Record)) (k k' : Option String)
    (v : Record) (hne : k' ≠ k) : dictGet (upsert m k v) k' = dictGet m k' := by
  induction m with
  | nil =>
    simp only [upsert, dictGet]
    rw [if_neg (fun h => hne h.symm)]
  | cons p rest ih =>
    obtain ⟨k₀, v₀⟩ := p
    by_cases h : k₀ = k
    · subst h
      simp only [upsert, if_pos rfl, dictGet]
      rw [if_neg (fun h => hne h.symm), if_neg (fun h => hne h.symm)]
    · simp only [upsert, if_neg h, dictGet]
      by_cases h' : k₀ = k'
      · rw [if_pos h', if_pos h']
      · rw [if_neg h', if_neg h', ih]

theorem mem_upsert (m : List (Option String × Record)) (k : Option String) (v : Record)
    (p : Option String × Record) (hp : p ∈ upsert m k v) : p = (k, v) ∨ p ∈ m := by
  induction m with
  | nil => simpa [upsert] using hp
  | cons q rest ih =>
    obtain ⟨k₀, v₀⟩ := q
    by_cases h : k₀ = k
    · simp [upsert, h] at hp
      rcases hp with h1 | h1
      · exact Or.inl (by simp [h1])
      · exact Or.inr (by simp [h1])
    · simp [upsert, h] at hp
      rcases hp with h1 | h1
      · exact Or.inr (by simp [h1])
      · rcases ih h1 with h2 | h2
        · exact Or.inl h2
        · exact Or.inr (by simp [h2])

theorem keys_upsert (m : List (Option String × Record)) (k : Option String) (v : Record) :
    (upsert m k v).map Prod.fst =
      if k ∈ m.map Prod.fst then m.map Prod.fst else m.map Prod.fst ++ [k] := by
  induction m with
  | nil => simp [upsert]
  | cons p rest ih =>
    obtain ⟨k₀, v₀⟩ := p
    by_cases h : k₀ = k
    · simp [upsert, h]
    · by_cases hk : k ∈ rest.map Prod.fst
      · simp [upsert, h, hk, ih, Ne.symm h]
      · simp [upsert, h, hk, ih, Ne.symm h]

theorem keys_upsert_nodup (m : List (Option String × Record)) (k : Option String)
    (v : Record) (h : (m.map Prod.fst).Nodup) : ((upsert m k v).map Prod.fst).Nodup := by
  rw [keys_upsert]
  by_cases hk : k ∈ m.map Prod.fst
  · simpa [hk]
  · simp only [hk, if_false]
    exact List.Nodup.append h (List.nodup_singleton k) (by simpa using hk)

theorem snd_id_upsert (m : List (Option String × Record)) (r : Record)
    (hm : ∀ p ∈ m, p.2.event_id = p.1) :
    ∀ p ∈ upsert m r.event_id r, p.2.event_id = p.1 := by
  intro p hp
  rcases mem_upsert m r.event_id r p hp with h | h
  · subst h; rfl
  · exact hm p h

theorem dictGet_insertAll (rows : List Record) :
    ∀ (m : List (Option String × Record)) (k : Option String),
      dictGet (insertAll m rows) k =
        match lastWithId rows k with
        | some r => some r
        | none => dictGet m k := by
  induction rows with
  | nil => intro m k; simp [insertAll, lastWithId]
  | cons r rest ih =>
    intro m k
    have step : insertAll m (r :: rest) = insertAll (upsert m r.event_id r) rest := rfl
    rw [step, ih]
    cases hrest : lastWithId rest k with
    | some s => simp [lastWithId, hrest]
    | none =>
      by_cases hid : r.event_id = k
      · subst hid
        simp [lastWithId, hrest, dictGet_upsert_self]
      · simp only [lastWithId, hrest, if_neg hid]
        exact dictGet_upsert_ne m r.event_id k r (fun h => hid h.symm)

theorem keys_insertAll_nodup (rows : List Record) :
    ∀ m : List (Option String × Record), (m.map Prod.fst).Nodup →
      ((insertAll m rows).map Prod.fst).Nodup := by
  induction rows with
  | nil => intro m hm; simpa [insertAll]
  | cons r rest ih =>
    intro m hm
    exact ih (upsert m r.event_id r) (keys_upsert_nodup m r.event_id r hm)

theorem snd_id_insertAll (rows : List Record) :
    ∀ m : List (Option String × Record), (∀ p ∈ m, p.2.event_id = p.1) →
      ∀ p ∈ insertAll m rows, p.2.event_id = p.1 := by
  induction rows with
  | nil => intro m hm; exact hm
  | cons r rest ih =>
    intro m hm
    exact ih (upsert m r.event_id r) (snd_id_upsert m r hm)

theorem mem_of_dictGet (m : List (Option String × Record)) (k : Option String)
    (v : Record) (h : dictGet m k = some v) : (k, v) ∈ m := by
  induction m with
  | nil => simp [dictGet] at h
  | cons p rest ih =>
    obtain ⟨k₀, v₀⟩ := p
    by_cases hk : k₀ = k
    · subst hk
      simp [dictGet] at h
      simp [h]
    · simp [dictGet, hk] at h
      exact List.mem_cons_of_mem _ (ih h)

theorem dictGet_of_mem (m : List (Option String × Record)) (k : Option String)
    (v : Record) (hnd : (m.map Prod.fst).Nodup) (h : (k, v) ∈ m) :
    dictGet m k = some v := by
  induction m with
  | nil => simp at h
  | cons p rest ih =>
    obtain ⟨k₀, v₀⟩ := p
    rw [List.map_cons] at hnd
    have hnd1 := List.nodup_cons.mp hnd
    rcases List.mem_cons.mp h with h1 | h1
    · injection h1 with hk hv
      subst hk
      subst hv
      simp [dictGet]
    · have hk : k₀ ≠ k := by
        intro heq
        subst heq
        exact hnd1.1 (List.mem_map.mpr ⟨(k₀, v), h1, rfl⟩)
      simp only [dictGet, if_neg hk]
      exact ih hnd1.2 h1

theorem lastWithId_mem (rows : List Record) (k : Option String) :
    ∀ r, lastWithId rows k = some r → r ∈ rows ∧ r.event_id = k := by
  induction rows with
  | nil => intro r h; simp [lastWithId] at h
  | cons s rest ih =>
    intro r h
    simp only [lastWithId] at h
    cases hrest : lastWithId rest k with
    | some t =>
      rw [hrest] at h
      have ht : t = r := by simpa using h
      subst ht
      obtain ⟨h1, h2⟩ := ih t hrest
      exact ⟨List.mem_cons_of_mem _ h1, h2⟩
    | none =>
      rw [hrest] at h
      by_cases hid : s.event_id = k
      · rw [if_pos hid] at h
        have hs : s = r := by simpa using h
        subst hs
        exact ⟨List.mem_cons_self _ _, hid⟩
      · rw [if_neg hid] at h
        simp at h

theorem lastWithId_isSome_of_mem (rows : List Record) (r : Record) (hr : r ∈ rows) :
    (lastWithId rows r.event_id).isSome := by
  induction rows with
  | nil => simp at hr
  | cons s rest ih =>
    simp only [lastWithId]
    cases hrest : lastWithId rest r.event_id with
    | some t => simp
    | none =>
      rcases List.mem_cons.mp hr with h | h
      · subst h; simp
      · have := ih h
        rw [hrest] at this
        simp at this

/-- The dict built from scratch reads back exactly the last write at each
key. -/
theorem dictGet_fromRows (rows : List Record) (k : Option String) :
    dictGet (insertAll [] rows) k = lastWithId rows k := by
  rw [dictGet_insertAll]
  cases lastWithId rows k <;> simp [dictGet]

/-- Membership in the deduplicated collection is exactly being the last
record with one's identifier. -/
theorem mem_dedupeById_iff (rows : List Record) (r : Record) :
    r ∈ dedupeById rows ↔ lastWithId rows r.event_id = some r := by
  constructor
  · intro h
    obtain ⟨p, hmem, hv⟩ := List.mem_map.mp h
    obtain ⟨k, v⟩ := p
    have hv' : v = r := hv
    subst hv'
    have hid : v.event_id = k :=
      snd_id_insertAll rows [] (fun q hq => absurd hq (List.not_mem_nil q)) (k, v) hmem
    have hnd := keys_insertAll_nodup rows [] (by simp)
    have hg : dictGet (insertAll [] rows) k = some v := dictGet_of_mem _ k v hnd hmem
    rw [dictGet_fromRows] at hg
    rw [hid]
    exact hg
  · intro h
    have hg : dictGet (insertAll [] rows) r.event_id = some r := by
      rw [dictGet_fromRows]; exact h
    have hmem := mem_of_dictGet _ _ _ hg
    exact List.mem_map.mpr ⟨(r.event_id, r), hmem, rfl⟩

/-- Identifiers are pairwise distinct in the deduplicated collection. -/
theorem dedupeById_ids_nodup (rows : List Record) :
    ((dedupeById rows).map Record.event_id).Nodup := by
  have hkeys := keys_insertAll_nodup rows [] (by simp)
  have hid := snd_id_insertAll rows [] (by simp)
  have : (dedupeById rows).map Record.event_id = (insertAll [] rows).map Prod.fst := by
    unfold dedupeById
    rw [List.map_map]
    exact List.map_congr_left fun p hp => hid p hp
  rw [this]
  exact hkeys

/-- Concatenating lists, the last record with a given identifier is the one
in the second list when it has one. -/
theorem lastWithId_append (A B : List Record) (k : Option String) :
    lastWithId (A ++ B) k =
      match lastWithId B k with
      | some r => some r
      | none => lastWithId A k := by
  induction A with
  | nil =>
    simp only [List.nil_append]
    cases hB : lastWithId B k <;> simp [lastWithId]
  | cons a rest ih =>
    simp only [List.cons_append, lastWithId, List.append_eq]
    rw [ih]
    cases hB : lastWithId B k with
    | some r => simp
    | none => cases hrest : lastWithId rest k <;> simp [hrest]

/-- C3: deduplication over the concatenation of the global-scope list `A`
and the region-scope list `B` is last-write-wins by identifier: when `B`
contains a record `rB` as its last record with identifier `k`, the merged
collection contains `rB`, any merged record with identifier `k` is `rB`
itself (so the region-scope version wins over any global-scope record with
the same identifier, whatever its field values), and every identifier
appears at most once in the merged collection. -/
theorem dedupe_region_precedence (A B : List Record) (k : Option String) (rB : Record)
    (hB : lastWithId B k = some rB) :
    rB ∈ dedupeById (A ++ B) ∧
      (∀ r ∈ dedupeById (A ++ B), r.event_id = k → r = rB) ∧
      ((dedupeById (A ++ B)).map Record.event_id).Nodup := by
  have hid : rB.event_id = k := (lastWithId_mem B k rB hB).2
  have hAB : lastWithId (A ++ B) k = some rB := by
    rw [lastWithId_append, hB]
  refine ⟨?_, ?_, dedupeById_ids_nodup _⟩
  · rw [mem_dedupeById_iff, hid]
    exact hAB
  · intro r hr hrk
    have := (mem_dedupeById_iff _ r).mp hr
    rw [hrk, hAB] at this
    exact Option.some.inj this.symm

/-- A record carrying only a global-scope name under identifier X. -/
def recGlobalX : Record :=
  ⟨some "X", some "global", none, none, none, none, none, none, none, none, none, none⟩

/-- A record carrying only a region-scope name under identifier X. -/
def recRegionX : Record :=
  ⟨some "X", some "region", none, none, none, none, none, none, none, none, none, none⟩

/-- Witness for C3: with a global list and a region list each holding a
different record under identifier X, the merged collection keeps exactly
the region version. -/
theorem dedupe_region_precedence_witness :
    lastWithId [recRegionX] (some "X") = some recRegionX ∧
      (recRegionX ∈ dedupeById ([recGlobalX] ++ [recRegionX]) ∧
        (∀ r ∈ dedupeById ([recGlobalX] ++ [recRegionX]), r.event_id = some "X" → r = recRegionX) ∧
        ((dedupeById ([recGlobalX] ++ [recRegionX])).map Record.event_id).Nodup) :=
  ⟨by decide, dedupe_region_precedence [recGlobalX] [recRegionX] (some "X") recRegionX (by decide)⟩

/-- C10: records lacking an identifier all collide under the single absent
key: when some input record has no identifier, the merged collection
contains the last such record, and any merged record without an identifier
is that one — every earlier identifier-less record is discarded. -/
theorem dedupe_absent_id (rows : List Record) (r : Record) (hr : r ∈ rows)
    (hid : r.event_id = none) :
    ∃ s, lastWithId rows none = some s ∧ s ∈ dedupeById rows ∧
      ∀ t ∈ dedupeById rows, t.event_id = none → t = s := by
  have hsome : (lastWithId rows none).isSome := by
    rw [← hid]; exact lastWithId_isSome_of_mem rows r hr
  obtain ⟨s, hs⟩ := Option.isSome_iff_exists.mp hsome
  have hsid : s.event_id = none := (lastWithId_mem rows none s hs).2
  refine ⟨s, hs, ?_, ?_⟩
  · rw [mem_dedupeById_iff, hsid]
    exact hs
  · intro t ht htid
    have := (mem_dedupeById_iff rows t).mp ht
    rw [htid, hs] at this
    exact Option.some.inj this.symm

/-- An identifier-less record named a. -/
def recNoIdA : Record :=
  ⟨none, some "a", none, none, none, none, none, none, none, none, none, none⟩

/-- An identifier-less record named b. -/
def recNoIdB : Record :=
  ⟨none, some "b", none, none, none, none, none, none, none, none, none, none⟩

/-- Witness for C10: of two identifier-less records, only the last-seen one
survives deduplication. -/
theorem dedupe_absent_id_witness :
    recNoIdA ∈ [recNoIdA, recNoIdB] ∧ recNoIdA.event_id = none ∧
      ∃ s, lastWithId [recNoIdA, recNoIdB] none = some s ∧ s ∈ dedupeById [recNoIdA, recNoIdB] ∧
        ∀ t ∈ dedupeById [recNoIdA, recNoIdB], t.event_id = none → t = s :=
  ⟨by decide, by decide, dedupe_absent_id [recNoIdA, recNoIdB] recNoIdA (by decide) (by decide)⟩

/-! ## Pagination

`fetch_events_page` issues one query and returns the page's normalized
rows together with the presence of a next link; the network and JSON
layers are abstracted as a function from page index to
(raw events of that page, next-link flag). `paginate` loops from page 0:
it breaks on an empty page (keeping what was accumulated), extends the
accumulator, and breaks after extending when no next link is reported or
when `(page + 1) * 200 >= DEEP_PAGING_LIMIT`. That guard makes the loop
body run at most five times (pages 0 to 4), so the loop is rendered with
a recursion budget of 5, which `paginateLoop_fuel_irrel` shows is not a
restriction. -/

def DEEP_PAGING_LIMIT : Nat := 1000

/-- A scope's sequence of page responses, page index to (rows, next-link
present). -/
def PageAPI : Type := Nat → List Record × Bool

/-- The `while True` body of `paginate`, returning the records gathered
from the given page onward; the budget only bounds recursion depth. -/
def paginateLoop (api : PageAPI) : Nat → Nat → List Record
  | _, 0 => []
  | page, fuel + 1 =>
    let page_rows := (api page).1
    let has_next := (api page).2
    if page_rows = [] then []
    else if has_next = false ∨ DEEP_PAGING_LIMIT ≤ (page + 1) * 200 then page_rows
    else page_rows ++ paginateLoop api (page + 1) fuel

/-- `paginate`: run the page loop from page 0. The guard stops the loop by
page 4, so a budget of 5 is exact. -/
def paginate (api : PageAPI) : List Record :=
  paginateLoop api 0 5

/-- Lifting a raw-event page source through `fetch_events_page`: each
page's events are normalized, the next-link flag is passed through. -/
def fetchPages (pages : Nat → List RawEvent × Bool) : PageAPI :=
  fun p => ((pages p).1.map normalize_row, (pages p).2)

/-- The recursion budget is irrelevant as long as it covers the pages the
guard allows: from any page at most 4, any two sufficient budgets give the
same result. -/
theorem paginateLoop_fuel_irrel (api : PageAPI) :
    ∀ f g page, page ≤ 4 → 5 ≤ page + f → 5 ≤ page + g →
      paginateLoop api page f = paginateLoop api page g := by
  intro f
  induction f with
  | zero => intro g page hp hf _; omega
  | succ f ih =>
    intro g page hp hf hg
    cases g with
    | zero => omega
    | succ g' =>
      simp only [paginateLoop]
      by_cases hempty : (api page).1 = []
      · simp [hempty]
      · rw [if_neg hempty, if_neg hempty]
        by_cases hstop : (api page).2 = false ∨ DEEP_PAGING_LIMIT ≤ (page + 1) * 200
        · rw [if_pos hstop, if_pos hstop]
        · rw [if_neg hstop, if_neg hstop]
          have hpage : page + 1 ≤ 4 := by
            simp only [DEEP_PAGING_LIMIT, not_or, not_le] at hstop
            omega
          rw [ih g' (page + 1) hpage (by omega) (by omega)]

/-- A record with every field absent. -/
def blankRecord : Record :=
  ⟨none, none, none, none, none, none, none, none, none, none, none, none⟩

set_option maxRecDepth 40000 in
/-- C4 counterexample: the deep-paging guard compares the page count, not
the accumulated record count, so a scope whose pages each return 201
records (with a next link) accumulates 5 pages of 201 records — 1005,
beyond the 1000-record ceiling the claim asserts. -/
theorem paginate_limit_counterexample :
    DEEP_PAGING_LIMIT < (paginate (fun _ => (List.replicate 201 blankRecord, true))).length := by
  decide

/-- C4 (amended): provided every page returns at most 200 records — the
page size the code requests — the paginator accumulates at most 1000
records for a single scope, regardless of the reported total and of how
many pages report a next link. -/
theorem paginate_bounded (api : PageAPI) (hsize : ∀ p, (api p).1.length ≤ 200) :
    (paginate api).length ≤ DEEP_PAGING_LIMIT := by
  have key : ∀ fuel page, (paginateLoop api page fuel).length ≤ fuel * 200 := by
    intro fuel
    induction fuel with
    | zero => intro page; simp [paginateLoop]
    | succ f ih =>
      intro page
      simp only [paginateLoop]
      by_cases hempty : (api page).1 = []
      · simp [hempty]
      · rw [if_neg hempty]
        by_cases hstop : (api page).2 = false ∨ DEEP_PAGING_LIMIT ≤ (page + 1) * 200
        · rw [if_pos hstop]
          have := hsize page
          omega
        · rw [if_neg hstop]
          rw [List.length_append]
          have h1 := ih (page + 1)
          have h2 := hsize page
          omega
  have := key 5 0
  simpa [paginate, DEEP_PAGING_LIMIT] using this

/-- Witness for the amended C4: a scope whose every page holds one record
stays within the ceiling. -/
theorem paginate_bounded_witness :
    (∀ p, ((fun _ => ([blankRecord], true) : PageAPI) p).1.length ≤ 200) ∧
      (paginate (fun _ => ([blankRecord], true))).length ≤ DEEP_PAGING_LIMIT := by
  have hsize : ∀ p, ((fun _ => ([blankRecord], true) : PageAPI) p).1.length ≤ 200 := by
    intro p
    show (1 : Nat) ≤ 200
    norm_num
  exact ⟨hsize, paginate_bounded (fun _ => ([blankRecord], true)) hsize⟩

/-- C5: pagination stops at the first page returning zero records, even
when that page reports that more pages exist: the result depends neither
on that page's next-link flag nor on any page with a higher index, so the
zero-record page contributes nothing and no later page is consulted. Two
page sources agreeing strictly below an index where both return zero
records paginate identically. -/
theorem paginate_stops_on_empty (api api' : PageAPI) (n : Nat)
    (hn : (api n).1 = []) (hn' : (api' n).1 = [])
    (hagree : ∀ m, m < n → api m = api' m) :
    paginate api = paginate api' := by
  have key : ∀ fuel page, page ≤ n → paginateLoop api page fuel = paginateLoop api' page fuel := by
    intro fuel
    induction fuel with
    | zero => intro page _; rfl
    | succ f ih =>
      intro page hp
      by_cases hpn : page = n
      · subst hpn
        simp [paginateLoop, hn, hn']
      · have hlt : page < n := lt_of_le_of_ne hp hpn
        have heq := hagree page hlt
        simp only [paginateLoop, heq]
        by_cases hempty : (api' page).1 = []
        · simp [hempty]
        · rw [if_neg hempty, if_neg hempty]
          by_cases hstop : (api' page).2 = false ∨ DEEP_PAGING_LIMIT ≤ (page + 1) * 200
          · rw [if_pos hstop, if_pos hstop]
          · rw [if_neg hstop, if_neg hstop, ih (page + 1) hlt]
  exact key 5 0 (Nat.zero_le n)

/-- A page source whose page 0 is empty but reports a next page, with
nonempty pages above. -/
def pageApiEmptyThenFull : PageAPI :=
  fun p => if p = 0 then ([], true) else ([blankRecord], true)

/-- A page source with every page empty and reporting a next page. -/
def pageApiAllEmpty : PageAPI := fun _ => ([], true)

/-- Witness for C5: an empty page 0 reporting more pages stops pagination;
the nonempty pages above index 0 are never reflected in the result. -/
theorem paginate_stops_on_empty_witness :
    (pageApiEmptyThenFull 0).1 = [] ∧ (pageApiAllEmpty 0).1 = [] ∧
      paginate pageApiEmptyThenFull = paginate pageApiAllEmpty :=
  ⟨rfl, rfl,
    paginate_stops_on_empty pageApiEmptyThenFull pageApiAllEmpty 0 rfl rfl
      (fun m hm => absurd hm (Nat.not_lt_zero m))⟩

/-! ## Country filtering -/

/-- The synonym table mapping common abbreviations and spellings, in
lowercase, to the canonical country labels. -/
def COUNTRY_NORMALIZE : List (String × String) :=
  [("uk", "Great Britain"),
   ("united kingdom", "Great Britain"),
   ("great britain", "Great Britain"),
   ("usa", "United States Of America"),
   ("united states", "United States Of America"),
   ("united states of america", "United States Of America"),
   ("israel", "Israel"),
   ("ca", "Canada"),
   ("canada", "Canada")]

/-- The default country allow-list. -/
def DEFAULT_ALLOWED : List String :=
  ["Israel", "United States Of America", "Great Britain", "Canada"]

/-- Normalize one country label: look up its stripped, lowercased form in
the synonym table, returning the name unchanged when absent. -/
def normalize_country_label (name : String) : String :=
  let key := pyLower (pyStrip name)
  match COUNTRY_NORMALIZE.find? (fun p => p.1 == key) with
  | some p => p.2
  | none => name

/-- `parse_list`: a missing CLI value yields the default list; a
comma-separated value is split, each part stripped, blank parts dropped,
and every part run through the synonym normalization. -/
def parse_list (argVal : Option String) (defaultList : List String) : List String :=
  match argVal with
  | none => defaultList
  | some s =>
      (((pySplitComma s).map pyStrip).filter (fun x => x ≠ "")).map normalize_country_label

/-- The comparison key of a record's country in `filter_by_countries`:
the country string (empty when absent), stripped, lowercased. -/
def countryKey (r : Record) : String :=
  pyLower (pyStrip (r.country.getD ""))

/-- `filter_by_countries`: lowercase both lists; keep a record unless an
active (nonempty) allow-list misses its country key, or an active
block-list contains it. -/
def filter_by_countries (rows : List Record) (allowed blocked : List String) : List Record :=
  let allowed_set := allowed.map pyLower
  let blocked_set := blocked.map pyLower
  rows.filter fun r =>
    let cl := countryKey r
    !(!allowed_set.isEmpty && !allowed_set.contains cl) &&
      !(!blocked_set.isEmpty && blocked_set.contains cl)

/-- The keep condition of the country filter, unfolded into membership:
pass the allow check and avoid the block check. -/
theorem keep_iff (A B : List String) (cl : String) :
    ((!(!A.isEmpty && !A.contains cl)) && !(!B.isEmpty && B.contains cl)) = true ↔
      ((A = [] ∨ cl ∈ A) ∧ cl ∉ B) := by
  cases hA : A <;> cases hB : B <;>
    simp_all [List.isEmpty_iff, List.elem_iff, List.contains]

/-- A record whose only populated field is a country. -/
def recWithCountry (c : String) : Record :=
  ⟨none, none, none, none, none, some c, none, none, none, none, none, none⟩

/-- A record with no country at all. -/
def recNoCountry : Record :=
  ⟨none, none, none, none, none, none, none, none, none, none, none, none⟩

/-- C6 counterexample: with the non-empty allow-list holding just the
empty string, a record whose country is absent is retained — its empty
comparison key matches the empty allowed entry — although the claim says
any record with an absent country is dropped whenever the allow-list is
non-empty. -/
theorem filter_absent_country_retained :
    filter_by_countries [recNoCountry] [""] [] = [recNoCountry] := by
  decide

/-- C6 (amended): provided no allow-list entry lowercases to the empty
string, membership in the filtered output is characterized exactly as the
claim states: a record passes iff the allow-list is empty or its
stripped-lowercased country key (empty when the country is absent) is an
allow-list entry — so an absent country is dropped whenever the allow-list
is active — and additionally its key is not a block-list entry; with no
allow-list, a record is retained exactly when its key avoids the
block-list. -/
theorem filter_by_countries_correct (rows : List Record) (allowed blocked : List String)
    (hA : "" ∉ allowed.map pyLower) (r : Record) (hr : r ∈ rows) :
    r ∈ filter_by_countries rows allowed blocked ↔
      ((allowed = [] ∨ (countryKey r ∈ allowed.map pyLower ∧ countryKey r ≠ "")) ∧
        countryKey r ∉ blocked.map pyLower) := by
  unfold filter_by_countries
  rw [List.mem_filter]
  simp only [hr, true_and]
  rw [keep_iff]
  constructor
  · rintro ⟨h1, h2⟩
    refine ⟨?_, h2⟩
    rcases h1 with h1 | h1
    · exact Or.inl (by simpa using h1)
    · refine Or.inr ⟨h1, ?_⟩
      intro hk
      rw [hk] at h1
      exact hA h1
  · rintro ⟨h1, h2⟩
    refine ⟨?_, h2⟩
    rcases h1 with h1 | h1
    · exact Or.inl (by simp [h1])
    · exact Or.inr h1.1

/-- A record whose country is Canada in mixed case. -/
def recCanada : Record := recWithCountry "cAnAdA"

/-- A record whose country is France. -/
def recFrance : Record := recWithCountry "France"

/-- Witness for the amended C6: with allow-list Canada and an empty
block-list, a record with country written cAnAdA satisfies the
characterization (and is in fact retained while a French record is not). -/
theorem filter_by_countries_correct_witness :
    ("" ∉ ["Canada"].map pyLower) ∧ recCanada ∈ [recCanada, recFrance] ∧
      ((recCanada ∈ filter_by_countries [recCanada, recFrance] ["Canada"] [] ↔
        ((["Canada"] = [] ∨
            (countryKey recCanada ∈ ["Canada"].map pyLower ∧ countryKey recCanada ≠ "")) ∧
          countryKey recCanada ∉ ([] : List String).map pyLower)) ∧
        filter_by_countries [recCanada, recFrance] ["Canada"] [] = [recCanada] ∧
        filter_by_countries [recCanada, recFrance] [] ["France"] = [recCanada]) :=
  ⟨by decide, by decide,
    filter_by_countries_correct [recCanada, recFrance] ["Canada"] []
      (by decide) recCanada (by decide),
    by decide, by decide⟩

/-! ## The main pipeline

`main` resolves dates, parses the country lists, paginates the global
scope and (unless disabled) the IL scope, deduplicates by identifier,
filters by country, and writes the header row plus one CSV row per
remaining record. The network is abstracted as the two scopes' page
sources; the output file contents are modelled as the list of CSV lines.
A raised `ValueError` is modelled as an error result, which carries no
output. -/

/-- A calendar date, compared lexicographically as Python date objects
are; the CLI date strings are taken here already parsed, so a `Date`
stands for a parseable argument. -/
structure Date where
  year : Nat
  month : Nat
  day : Nat
deriving DecidableEq

/-- Python `<` on dates: lexicographic on (year, month, day). -/
def dateLt (a b : Date) : Bool :=
  decide (a.year < b.year ∨
    (a.year = b.year ∧ (a.month < b.month ∨ (a.month = b.month ∧ a.day < b.day))))

/-- The default start date 2025-10-01. -/
def default_start : Date := ⟨2025, 10, 1⟩

/-- The default end date 2026-07-01. -/
def default_end : Date := ⟨2026, 7, 1⟩

/-- The CLI arguments `main` consumes, date arguments already parsed. -/
structure Args where
  start_date : Option Date
  end_date : Option Date
  out : String
  segment : String
  no_il : Bool
  allowed_countries : Option String
  blocked_countries : Option String

/-- `ensure_dates`: apply the defaults, then fail when the end date is
strictly before the start date. -/
def ensure_dates (startArg endArg : Option Date) : Except String (Date × Date) :=
  let start := startArg.getD default_start
  let stop := endArg.getD default_end
  if dateLt stop start then Except.error "end-date must be on/after start-date"
  else Except.ok (start, stop)

/-- `main` минус I/O: date resolution, country-list parsing, the two
paginated scopes, deduplication, country filter, CSV serialization. -/
def runMain (args : Args) (world il : Nat → List RawEvent × Bool) :
    Except String (List String) :=
  match ensure_dates args.start_date args.end_date with
  | Except.error msg => Except.error msg
  | Except.ok _ =>
    let allowed := parse_list args.allowed_countries DEFAULT_ALLOWED
    let blocked := parse_list args.blocked_countries []
    let world_rows := paginate (fetchPages world)
    let il_rows := if args.no_il then [] else paginate (fetchPages il)
    let all_rows := dedupeById (world_rows ++ il_rows)
    let filtered_rows := filter_by_countries all_rows allowed blocked
    Except.ok (headerCsvRow :: filtered_rows.map recordCsvRow)

/-- C8: whenever the parsed end date is strictly before the parsed start
date, the run fails with the date-validation error whatever the two page
sources would have answered — the result does not depend on them, so the
failure precedes any network call and no output rows are produced. -/
theorem ensure_dates_fatal (args : Args) (world il : Nat → List RawEvent × Bool)
    (s e : Date) (hs : args.start_date = some s) (he : args.end_date = some e)
    (hlt : dateLt e s = true) :
    runMain args world il = Except.error "end-date must be on/after start-date" := by
  unfold runMain ensure_dates
  rw [hs, he]
  simp [Option.getD, hlt]

/-- Arguments carrying an end date one day before the start date. -/
def argsBadDates : Args :=
  ⟨some ⟨2025, 1, 2⟩, some ⟨2025, 1, 1⟩, "world_music_events.csv", "music", false, none, none⟩

/-- Witness for C8: 2025-01-01 before 2025-01-02 aborts the run. -/
theorem ensure_dates_fatal_witness :
    argsBadDates.start_date = some ⟨2025, 1, 2⟩ ∧ argsBadDates.end_date = some ⟨2025, 1, 1⟩ ∧
      dateLt ⟨2025, 1, 1⟩ ⟨2025, 1, 2⟩ = true ∧
      runMain argsBadDates (fun _ => ([], false)) (fun _ => ([], false)) =
        Except.error "end-date must be on/after start-date" :=
  ⟨rfl, rfl, by decide,
    ensure_dates_fatal argsBadDates (fun _ => ([], false)) (fun _ => ([], false))
      ⟨2025, 1, 2⟩ ⟨2025, 1, 1⟩ rfl rfl (by decide)⟩

/-- The raw event of the end-to-end example. -/
def exampleEvent : RawEvent :=
  { id := some "E1"
    name := some "Show"
    embedded := some
      { venues := some [{ name := some "Hall", city := some (some "Tel Aviv"),
                          country := some (some "Israel") }]
        attractions := some [AttractionJ.dict (some "Band A")] }
    classifications := some [{ genre := some (some "Rock"), subGenre := none }]
    dates := some (some { localDate := some "2025-11-01", localTime := some "20:00:00" })
    url := some "http://x" }

/-- Default arguments with the region pass disabled. -/
def argsDefaultNoIl : Args :=
  ⟨none, none, "world_music_events.csv", "music", true, none, none⟩

/-- A global scope answering the single example page and nothing after. -/
def worldSinglePage : Nat → List RawEvent × Bool :=
  fun p => if p = 0 then ([exampleEvent], false) else ([], false)

set_option maxRecDepth 40000 in
/-- C1: the end-to-end example — one raw event, no region pass, default
allow-list, empty block-list — produces exactly the CSV header row and the
one expected data row. -/
theorem end_to_end_example :
    runMain argsDefaultNoIl worldSinglePage (fun _ => ([], false)) =
      Except.ok
        ["event_id,event_name,local_date,local_time,city,country,venue_name,genre_name,subgenre_name,artist_primary,artists,url",
         "E1,Show,2025-11-01,20:00:00,Tel Aviv,Israel,Hall,Rock,,Band A,Band A,http://x"] := by
  rfl

/-! ## Artist extraction properties -/

theorem mem_dedupeFirst (x : String) (l : List String) :
    ∀ seen, x ∈ dedupeFirst seen l ↔ (x ∈ l ∧ x ∉ seen) := by
  induction l with
  | nil => intro seen; simp [dedupeFirst]
  | cons n ns ih =>
    intro seen
    by_cases hn : n ∈ seen
    · rw [dedupeFirst, if_pos hn, ih seen]
      constructor
      · rintro ⟨h1, h2⟩
        exact ⟨List.mem_cons_of_mem _ h1, h2⟩
      · rintro ⟨h1, h2⟩
        rcases List.mem_cons.mp h1 with h1 | h1
        · subst h1; exact absurd hn h2
        · exact ⟨h1, h2⟩
    · rw [dedupeFirst, if_neg hn]
      constructor
      · intro hx
        rcases List.mem_cons.mp hx with h1 | h1
        · subst h1; exact ⟨List.mem_cons_self _ _, hn⟩
        · obtain ⟨h2, h3⟩ := (ih (n :: seen)).mp h1
          exact ⟨List.mem_cons_of_mem _ h2,
            fun hx2 => h3 (List.mem_cons_of_mem _ hx2)⟩
      · rintro ⟨h1, h2⟩
        rcases List.mem_cons.mp h1 with h1 | h1
        · subst h1; exact List.mem_cons_self _ _
        · by_cases hxn : x = n
          · subst hxn; exact List.mem_cons_self _ _
          · exact List.mem_cons_of_mem _
              ((ih (n :: seen)).mpr ⟨h1, by simp [hxn, h2]⟩)

theorem dedupeFirst_eq_self (l : List String) :
    ∀ seen, l.Nodup → (∀ x ∈ l, x ∉ seen) → dedupeFirst seen l = l := by
  induction l with
  | nil => intro seen _ _; rfl
  | cons n ns ih =>
    intro seen hnd hs
    have hn : n ∉ seen := hs n (List.mem_cons_self _ _)
    rw [dedupeFirst, if_neg hn]
    congr 1
    apply ih
    · exact (List.nodup_cons.mp hnd).2
    · intro x hx
      simp only [List.mem_cons, not_or]
      exact ⟨fun hxn => (List.nodup_cons.mp hnd).1 (hxn ▸ hx),
        hs x (List.mem_cons_of_mem _ hx)⟩

theorem dedupeFirst_nodup (l : List String) : ∀ seen, (dedupeFirst seen l).Nodup := by
  induction l with
  | nil => intro seen; simp [dedupeFirst]
  | cons n ns ih =>
    intro seen
    by_cases hn : n ∈ seen
    · rw [dedupeFirst, if_pos hn]
      exact ih seen
    · rw [dedupeFirst, if_neg hn]
      refine List.nodup_cons.mpr ⟨?_, ih (n :: seen)⟩
      intro hmem
      exact ((mem_dedupeFirst n ns (n :: seen)).mp hmem).2 (List.mem_cons_self _ _)

theorem dedupeFirst_pairwise (l : List String) :
    ∀ seen, (dedupeFirst seen l).Pairwise (fun a b => l.indexOf a < l.indexOf b) := by
  induction l with
  | nil => intro seen; simp [dedupeFirst]
  | cons n ns ih =>
    intro seen
    by_cases hn : n ∈ seen
    · rw [dedupeFirst, if_pos hn]
      refine (ih seen).imp_of_mem ?_
      intro a b ha hb hab
      have han : n ≠ a := fun h => ((mem_dedupeFirst a ns seen).mp ha).2 (by rw [← h]; exact hn)
      have hbn : n ≠ b := fun h => ((mem_dedupeFirst b ns seen).mp hb).2 (by rw [← h]; exact hn)
      rw [List.indexOf_cons_ne _ han, List.indexOf_cons_ne _ hbn]
      omega
    · rw [dedupeFirst, if_neg hn]
      refine List.pairwise_cons.mpr ⟨?_, ?_⟩
      · intro b hb
        have hbn : n ≠ b := fun h =>
          ((mem_dedupeFirst b ns (n :: seen)).mp hb).2 (by rw [← h]; exact List.mem_cons_self n seen)
        rw [List.indexOf_cons_self, List.indexOf_cons_ne _ hbn]
        omega
      · refine (ih (n :: seen)).imp_of_mem ?_
        intro a b ha hb hab
        have han : n ≠ a := fun h =>
          ((mem_dedupeFirst a ns (n :: seen)).mp ha).2 (by rw [← h]; exact List.mem_cons_self n seen)
        have hbn : n ≠ b := fun h =>
          ((mem_dedupeFirst b ns (n :: seen)).mp hb).2 (by rw [← h]; exact List.mem_cons_self n seen)
        rw [List.indexOf_cons_ne _ han, List.indexOf_cons_ne _ hbn]
        omega

/-- C7: for every event, artist extraction deduplicates the truthy
attraction names preserving first-seen order — the extracted list is
duplicate-free, has exactly the names' members, and lists them in strictly
increasing order of first occurrence in the attraction-name list; on an
event whose name list is already duplicate-free it returns that list
unchanged and in the same order; and, also for every event, the normalized
primary artist is the first extracted name (or absent when there are none)
while the joined artists field is the semicolon+space concatenation of the
extracted names (or absent when there are none). -/
theorem extract_artists_spec (e : RawEvent) :
    (extract_artists e).Nodup ∧
      (∀ x, x ∈ extract_artists e ↔ x ∈ attraction_names e) ∧
      (extract_artists e).Pairwise
        (fun a b => (attraction_names e).indexOf a < (attraction_names e).indexOf b) ∧
      ((attraction_names e).Nodup → extract_artists e = attraction_names e) ∧
      (normalize_row e).artist_primary = (extract_artists e).head? ∧
      (normalize_row e).artists =
        (if extract_artists e = [] then none
         else some (joinWith "; " (extract_artists e))) := by
  refine ⟨dedupeFirst_nodup (attraction_names e) [], ?_, dedupeFirst_pairwise (attraction_names e) [], ?_, ?_, ?_⟩
  · intro x
    rw [extract_artists, mem_dedupeFirst]
    simp
  · intro h
    exact dedupeFirst_eq_self (attraction_names e) [] h (fun x _ => List.not_mem_nil x)
  · unfold normalize_row
    cases hE : extract_artists e <;> simp [hE]
  · unfold normalize_row
    cases hE : extract_artists e <;> simp [hE]

/-- An event whose attraction names are A, B, A — a duplicate under
first-seen order. -/
def dupArtistEvent : RawEvent :=
  { id := some "E9"
    name := none
    embedded := some
      { venues := none
        attractions := some
          [AttractionJ.dict (some "A"), AttractionJ.dict (some "B"),
           AttractionJ.dict (some "A")] }
    classifications := none
    dates := none
    url := none }

/-- Witness for C7 at an event with the duplicate name list A, B, A: the
theorem instantiates there, and concretely the extraction keeps the first
occurrences in order, the primary artist is A and the joined field A; B. -/
theorem extract_artists_spec_witness :
    ((extract_artists dupArtistEvent).Nodup ∧
      (∀ x, x ∈ extract_artists dupArtistEvent ↔ x ∈ attraction_names dupArtistEvent) ∧
      (extract_artists dupArtistEvent).Pairwise
        (fun a b => (attraction_names dupArtistEvent).indexOf a <
          (attraction_names dupArtistEvent).indexOf b) ∧
      ((attraction_names dupArtistEvent).Nodup →
        extract_artists dupArtistEvent = attraction_names dupArtistEvent) ∧
      (normalize_row dupArtistEvent).artist_primary = (extract_artists dupArtistEvent).head? ∧
      (normalize_row dupArtistEvent).artists =
        (if extract_artists dupArtistEvent = [] then none
         else some (joinWith "; " (extract_artists dupArtistEvent)))) ∧
      attraction_names dupArtistEvent = ["A", "B", "A"] ∧
      extract_artists dupArtistEvent = ["A", "B"] ∧
      (normalize_row dupArtistEvent).artist_primary = some "A" ∧
      (normalize_row dupArtistEvent).artists = some "A; B" :=
  ⟨extract_artists_spec dupArtistEvent, by decide, by decide, by decide, by decide⟩
